import Mathlib

/-!
# Verification of the BiblioPixel WS281x controller firmware (src/firmware/main.c)

Shallow embedding of the firmware's two cooperating components:

* the streaming packet decoder in `main` (lines 105-191), which parses
  3-byte headers `[opcode, length_lo, length_hi]` followed by `length`
  payload bytes, writes opcode-2 payload triples into the `leds` array in
  G,R,B order, and stages one `0xFF` acknowledgment byte per completed
  nonzero-length command in the USB IN buffer; and
* the SPI interrupt service routine `isr` (lines 195-237), which streams
  the 384 buffer bytes most-significant-bit first, one SPI byte pattern
  (`0xFF` for a 1 bit, `0xF0` for a 0 bit) per bit.

Machine integers are modelled as `Nat` with explicit `% 256` where the C
code truncates into a `uint8_t`.  The `leds` array is modelled as a
function from byte offset to stored value; pointers into it (`wptr`,
`isr_ptr`) are byte offsets, with the C `NULL` cursor as `none`.
`toPC` models the bytes staged in the USB IN buffer (`in_buf` indexed by
`toPC_count`); `sent` collects bytes already handed to the USB stack by
the flush at the top of the polling loop.  `out` collects the byte
patterns the ISR writes to `SSP1BUF`.  The `gie` flag models
`INTCONbits.GIE`, the activation flag of the hand-off.
-/

def LED_COUNT : Nat := 128

/-- Combined state of the decoder loop locals, the shared `leds` array and
hand-off variables, and the ISR statics. -/
structure Sys where
  command : Nat
  previous_byte : Nat
  current_byte : Nat
  color_index : Nat
  led_index : Nat
  data_remaining : Nat
  wptr : Option Nat
  leds : Nat → Nat
  toPC : List Nat
  sent : List Nat
  isr_ptr : Nat
  gie : Bool
  bit_position : Nat
  byte_count : Nat
  isr_current : Nat
  out : List Nat

/-- Pointwise update of the modelled `leds` byte array. -/
def updFn (f : Nat → Nat) (i v : Nat) : Nat → Nat :=
  fun j => if j = i then v else f j

/-- Lines 117-135: the opcode-2 write of the current payload byte through
`wptr`, reordering host R,G,B into stored G,R,B.  Phase 0 (red) stores at
`wptr+1`, phase 1 (green) at `wptr+0`, phase 2 (blue) at `wptr+2` and
advances the cursor by one entry. -/
def pixelWrite (s : Sys) (b : Nat) : Sys :=
  match s.wptr with
  | none => s
  | some w =>
    match s.color_index with
    | 0 => { s with leds := updFn s.leds (w + 1) b }
    | 1 => { s with leds := updFn s.leds w b }
    | 2 => { s with leds := updFn s.leds (w + 2) b, wptr := some (w + 3) }
    | _ + 3 => s

/-- Lines 137-146: on the last payload byte of an opcode-2 command,
publish the read cursor at the start of `leds` and enable the interrupt
(the `SSP1BUF = 0x00` dummy write that starts the SPI self-clocking is
abstracted into the availability of ISR steps while `gie` is set). -/
def handOff (s : Sys) : Sys :=
  if s.data_remaining = 0 then { s with isr_ptr := 0, gie := true } else s

/-- Lines 148-158: advance the 3-phase color sub-state; after a blue byte
advance `led_index` and deactivate the write cursor on reaching
`LED_COUNT`. -/
def colorAdvance (s : Sys) : Sys :=
  if s.color_index + 1 = 3 then
    { s with color_index := 0,
             led_index := (s.led_index + 1) % 256,
             wptr := if (s.led_index + 1) % 256 = LED_COUNT then none else s.wptr }
  else
    { s with color_index := s.color_index + 1 }

/-- Lines 161-163: stage one `0xFF` acknowledgment byte when the payload
is exhausted. -/
def ackIfDone (s : Sys) : Sys :=
  if s.data_remaining = 0 then { s with toPC := s.toPC ++ [255] } else s

/-- Lines 110-163: processing of one inbound byte while
`data_remaining` was nonzero (payload phase).  The byte `b` has already
been latched into `current_byte`. -/
def payloadByte (s : Sys) (b : Nat) : Sys :=
  let s1 := { s with data_remaining := s.data_remaining - 1 }
  let s2 := if s1.command = 2 then colorAdvance (handOff (pixelWrite s1 b)) else s1
  ackIfDone s2

/-- Lines 165-187: processing of one inbound byte while
`data_remaining` was zero.  Note the `switch` is on the position of the
byte within the current USB transfer, not on a header-phase counter. -/
def headerByte (s : Sys) (idx : Nat) : Sys :=
  match idx with
  | 0 => { s with command := s.current_byte, color_index := 0, led_index := 0,
                  wptr := some 0 }
  | 1 => s
  | 2 => { s with data_remaining := (s.current_byte <<< 8) ||| s.previous_byte }
  | _ + 3 => s

/-- Lines 105-188: processing of the inbound byte at position `idx` of
the current USB transfer. -/
def decStep (s : Sys) (idx b : Nat) : Sys :=
  let s1 := { s with previous_byte := s.current_byte, current_byte := b % 256 }
  match s.data_remaining with
  | 0 => headerByte s1 idx
  | _ + 1 => payloadByte s1 (b % 256)

/-- The inner `for` loop of `main` from position `idx` onwards. -/
def runFrom : Sys → Nat → List Nat → Sys
  | s, _, [] => s
  | s, idx, b :: rest => runFrom (decStep s idx b) (idx + 1) rest

/-- Processing of one complete inbound USB transfer. -/
def runChunk (s : Sys) (c : List Nat) : Sys := runFrom s 0 c

/-- Lines 92-96: hand the staged acknowledgment bytes to the USB stack
and reset `toPC_count`; the polling loop always does this before it
accepts a new inbound transfer. -/
def flush (s : Sys) : Sys := { s with sent := s.sent ++ s.toPC, toPC := [] }

/-- One polling-loop iteration that reaches chunk processing: the staged
output is flushed first (lines 85-100), then the new transfer is
decoded. -/
def usbIter (s : Sys) (c : List Nat) : Sys := runChunk (flush s) c

/-- Decoder-only multi-chunk run.  `toPC` accumulates the acknowledgment
stream; the intermediate flushes of the real loop only move staged bytes
to the USB stack and do not affect any decoder state, so they are elided
here (they are modelled by `usbIter` where the staging bound matters). -/
def runChunks (s : Sys) (cs : List (List Nat)) : Sys := cs.foldl runChunk s

/-- Lines 230-231: the SPI byte pattern for the most significant bit of
the ISR's current byte. -/
def pulsePat (cb : Nat) : Nat := if cb &&& 128 ≠ 0 then 255 else 240

/-- Lines 230-235: emit the pattern for the current most significant
bit, shift the next bit into position, and advance `bit_position`
modulo 8. -/
def emitBit (s : Sys) : Sys :=
  { s with out := s.out ++ [pulsePat s.isr_current],
           isr_current := (s.isr_current <<< 1) % 256,
           bit_position := (s.bit_position + 1) &&& 7 }

/-- Lines 195-237: one invocation of the ISR for a fired SSP1IF event.
On an 8-bit boundary it either terminates the pass (after
`LED_COUNT * 3` bytes: clear `GIE`, reset `byte_count`, no output) or
loads the next byte through the read cursor. -/
def isrStep (s : Sys) : Sys :=
  if s.bit_position = 0 then
    if s.byte_count = LED_COUNT * 3 then
      { s with gie := false, byte_count := 0 }
    else
      emitBit { s with isr_current := s.leds s.isr_ptr,
                       isr_ptr := s.isr_ptr + 1,
                       byte_count := s.byte_count + 1 }
  else
    emitBit s

/-- `n` consecutive ISR invocations. -/
def emitRun : Nat → Sys → Sys
  | 0, s => s
  | n + 1, s => emitRun n (isrStep s)

/-- An event of the combined system: delivery of one inbound USB
transfer to the polling loop, or one SSP1IF interrupt. -/
inductive Ev where
  | chunk : List Nat → Ev
  | tick : Ev

/-- Interleaving semantics: the ISR only runs while `GIE` is set. -/
def sysStep (s : Sys) : Ev → Sys
  | Ev.chunk c => usbIter s c
  | Ev.tick => if s.gie then isrStep s else s

/-- A run of the combined system from a state through a list of events. -/
def sysRun (s : Sys) (evs : List Ev) : Sys := evs.foldl sysStep s

/-- Power-on state: `toPC_count = 0`, `data_remaining = 0`, interrupts
disabled, ISR statics zero-initialised, `leds` in bss (zeroed). -/
def init : Sys :=
  { command := 0, previous_byte := 0, current_byte := 0, color_index := 0,
    led_index := 0, data_remaining := 0, wptr := some 0,
    leds := fun _ => 0, toPC := [], sent := [], isr_ptr := 0, gie := false,
    bit_position := 0, byte_count := 0, isr_current := 0, out := [] }

/-- Specification-level MSB-first expansion of one byte into the two SPI
pulse patterns: bit 1 becomes `0xFF`, bit 0 becomes `0xF0`. -/
def expandByte (b : Nat) : List Nat :=
  (List.range 8).map (fun k => if b.testBit (7 - k) then 255 else 240)

/-- The pulse-pattern stream for the whole 384-byte buffer in order. -/
def expandBuffer (s : Sys) : List Nat :=
  ((List.range (LED_COUNT * 3)).map (fun i => expandByte (s.leds i))).flatten

/-- Implementation-shaped expansion: the sequence of patterns produced by
repeatedly emitting for the top bit and shifting left within a byte. -/
def expandByteImpl : Nat → Nat → List Nat
  | _, 0 => []
  | cb, n + 1 => pulsePat cb :: expandByteImpl ((cb <<< 1) % 256) n

/-! ## Basic lemmas about the modelled operations -/

theorem updFn_same (f : Nat → Nat) (i v : Nat) : updFn f i v i = v := by
  simp [updFn]

theorem updFn_other (f : Nat → Nat) (i v j : Nat) (h : j ≠ i) :
    updFn f i v j = f j := by
  simp [updFn, h]

/-- Processing the byte at position 0 of a transfer while between
commands: latch the opcode and rewind the write cursor. -/
theorem decStep_hdr0 (s : Sys) (b : Nat) (h : s.data_remaining = 0) :
    decStep s 0 b =
      { s with previous_byte := s.current_byte, current_byte := b % 256,
               command := b % 256, color_index := 0, led_index := 0,
               wptr := some 0 } := by
  cases s
  simp only at h
  subst h
  rfl

/-- Position 1 of a transfer while between commands: only the byte
history advances. -/
theorem decStep_hdr1 (s : Sys) (b : Nat) (h : s.data_remaining = 0) :
    decStep s 1 b =
      { s with previous_byte := s.current_byte, current_byte := b % 256 } := by
  cases s
  simp only at h
  subst h
  rfl

/-- Position 2 of a transfer while between commands: latch the declared
length. -/
theorem decStep_hdr2 (s : Sys) (b : Nat) (h : s.data_remaining = 0) :
    decStep s 2 b =
      { s with previous_byte := s.current_byte, current_byte := b % 256,
               data_remaining := ((b % 256) <<< 8) ||| s.current_byte } := by
  cases s
  simp only at h
  subst h
  rfl

/-- Position 3 or later of a transfer while between commands: the byte
is discarded. -/
theorem decStep_hdr_ge3 (s : Sys) (idx b : Nat) (h : s.data_remaining = 0)
    (hidx : 3 ≤ idx) :
    decStep s idx b =
      { s with previous_byte := s.current_byte, current_byte := b % 256 } := by
  obtain ⟨k, rfl⟩ : ∃ k, idx = k + 3 := ⟨idx - 3, by omega⟩
  cases s
  simp only at h
  subst h
  rfl

/-- A payload byte in color phase 0 (red) with an active write cursor:
stored at `wptr + 1`. -/
theorem decStep_red (s : Sys) (idx a w d : Nat) (hc : s.command = 2)
    (hci : s.color_index = 0) (hw : s.wptr = some w)
    (hd : s.data_remaining = d + 1) :
    decStep s idx a =
      { s with previous_byte := s.current_byte, current_byte := a % 256,
               data_remaining := d, leds := updFn s.leds (w + 1) (a % 256),
               color_index := 1,
               gie := if d = 0 then true else s.gie,
               isr_ptr := if d = 0 then 0 else s.isr_ptr,
               toPC := if d = 0 then s.toPC ++ [255] else s.toPC } := by
  cases s
  simp only at hc hci hw hd
  subst hc hci hw hd
  cases d <;> rfl

/-- A payload byte in color phase 1 (green) with an active write cursor:
stored at `wptr + 0`. -/
theorem decStep_green (s : Sys) (idx a w d : Nat) (hc : s.command = 2)
    (hci : s.color_index = 1) (hw : s.wptr = some w)
    (hd : s.data_remaining = d + 1) :
    decStep s idx a =
      { s with previous_byte := s.current_byte, current_byte := a % 256,
               data_remaining := d, leds := updFn s.leds w (a % 256),
               color_index := 2,
               gie := if d = 0 then true else s.gie,
               isr_ptr := if d = 0 then 0 else s.isr_ptr,
               toPC := if d = 0 then s.toPC ++ [255] else s.toPC } := by
  cases s
  simp only at hc hci hw hd
  subst hc hci hw hd
  cases d <;> rfl

/-- A payload byte in color phase 2 (blue) with an active write cursor:
stored at `wptr + 2`; the cursor advances one entry and is deactivated
when `led_index` reaches `LED_COUNT`. -/
theorem decStep_blue (s : Sys) (idx a w d : Nat) (hc : s.command = 2)
    (hci : s.color_index = 2) (hw : s.wptr = some w)
    (hl128 : s.led_index < 128)
    (hd : s.data_remaining = d + 1) :
    decStep s idx a =
      { s with previous_byte := s.current_byte, current_byte := a % 256,
               data_remaining := d, leds := updFn s.leds (w + 2) (a % 256),
               color_index := 0, led_index := s.led_index + 1,
               wptr := if s.led_index + 1 = 128 then none else some (w + 3),
               gie := if d = 0 then true else s.gie,
               isr_ptr := if d = 0 then 0 else s.isr_ptr,
               toPC := if d = 0 then s.toPC ++ [255] else s.toPC } := by
  rcases s with ⟨cmd, pb, cb, ci, li, dr, wp, L, t, sn, ip, g, bp, bc, ic, o⟩
  simp only at hc hci hw hl128 hd
  subst hc hci hw hd
  have hmod : (li + 1) % 256 = li + 1 := Nat.mod_eq_of_lt (by omega)
  cases d <;>
    simp [decStep, payloadByte, pixelWrite, handOff, colorAdvance, ackIfDone,
          hmod, LED_COUNT]

/-- A payload byte of a command whose opcode is not 2: only the byte
count and the acknowledgment on completion. -/
theorem decStep_nonpixel (s : Sys) (idx a d : Nat) (hc : s.command ≠ 2)
    (hd : s.data_remaining = d + 1) :
    decStep s idx a =
      { s with previous_byte := s.current_byte, current_byte := a % 256,
               data_remaining := d,
               toPC := if d = 0 then s.toPC ++ [255] else s.toPC } := by
  cases s
  simp only at hc hd
  subst hd
  cases d <;>
    simp [decStep, payloadByte, ackIfDone, hc]

/-- An opcode-2 payload byte with the write cursor deactivated: the byte
is counted but the buffer is untouched. -/
theorem decStep_inactive (s : Sys) (idx a d : Nat) (hc : s.command = 2)
    (hw : s.wptr = none) (hd : s.data_remaining = d + 1) :
    decStep s idx a =
      { s with previous_byte := s.current_byte, current_byte := a % 256,
               data_remaining := d,
               color_index := if s.color_index + 1 = 3 then 0 else s.color_index + 1,
               led_index := if s.color_index + 1 = 3 then (s.led_index + 1) % 256
                            else s.led_index,
               wptr := none,
               gie := if d = 0 then true else s.gie,
               isr_ptr := if d = 0 then 0 else s.isr_ptr,
               toPC := if d = 0 then s.toPC ++ [255] else s.toPC } := by
  cases s
  simp only at hc hw hd
  subst hc hw hd
  cases d <;>
    simp [decStep, payloadByte, pixelWrite, handOff, colorAdvance, ackIfDone] <;>
    split <;> simp

/-! ## Plumbing for multi-transfer runs -/

theorem runFrom_append (s : Sys) (idx : Nat) (xs ys : List Nat) :
    runFrom s idx (xs ++ ys) = runFrom (runFrom s idx xs) (idx + xs.length) ys := by
  induction xs generalizing s idx with
  | nil => simp [runFrom]
  | cons x xs ih =>
    have h : idx + 1 + xs.length = idx + (x :: xs).length := by
      simp [Nat.add_comm, Nat.add_assoc, Nat.add_left_comm]
    calc runFrom s idx (x :: xs ++ ys)
        = runFrom (decStep s idx x) (idx + 1) (xs ++ ys) := rfl
      _ = runFrom (runFrom (decStep s idx x) (idx + 1) xs) (idx + 1 + xs.length) ys :=
          ih _ _
      _ = runFrom (runFrom s idx (x :: xs)) (idx + (x :: xs).length) ys := by
          rw [h]
          rfl

/-- During a payload phase the position of the byte within the transfer
is irrelevant. -/
theorem decStep_idx_irrel (s : Sys) (idx idx' b : Nat)
    (h : s.data_remaining ≠ 0) : decStep s idx b = decStep s idx' b := by
  rcases s with ⟨cmd, pb, cb, ci, li, dr, wp, L, t, sn, ip, g, bp, bc, ic, o⟩
  simp only at h
  cases dr with
  | zero => exact absurd rfl h
  | succ d => rfl

theorem pixelWrite_dr (s : Sys) (b : Nat) :
    (pixelWrite s b).data_remaining = s.data_remaining := by
  unfold pixelWrite
  split
  · rfl
  · split <;> rfl

theorem handOff_dr (s : Sys) :
    (handOff s).data_remaining = s.data_remaining := by
  unfold handOff
  split <;> rfl

theorem colorAdvance_dr (s : Sys) :
    (colorAdvance s).data_remaining = s.data_remaining := by
  unfold colorAdvance
  split <;> rfl

theorem ackIfDone_dr (s : Sys) :
    (ackIfDone s).data_remaining = s.data_remaining := by
  unfold ackIfDone
  split <;> rfl

theorem pixelWrite_toPC (s : Sys) (b : Nat) : (pixelWrite s b).toPC = s.toPC := by
  unfold pixelWrite
  split
  · rfl
  · split <;> rfl

theorem handOff_toPC (s : Sys) : (handOff s).toPC = s.toPC := by
  unfold handOff
  split <;> rfl

theorem colorAdvance_toPC (s : Sys) : (colorAdvance s).toPC = s.toPC := by
  unfold colorAdvance
  split <;> rfl

theorem decStep_dr_succ (s : Sys) (idx b d : Nat)
    (hd : s.data_remaining = d + 1) :
    (decStep s idx b).data_remaining = d := by
  rcases s with ⟨cmd, pb, cb, ci, li, dr, wp, L, t, sn, ip, g, bp, bc, ic, o⟩
  simp only at hd
  subst hd
  show (payloadByte _ _).data_remaining = d
  simp only [payloadByte]
  rw [ackIfDone_dr]
  split <;> simp [colorAdvance_dr, handOff_dr, pixelWrite_dr]

/-- Consuming a byte list no longer than the declared remaining length
decrements `data_remaining` by exactly the list length. -/
theorem runFrom_dr (p : List Nat) (s : Sys) (idx : Nat)
    (h : p.length ≤ s.data_remaining) :
    (runFrom s idx p).data_remaining = s.data_remaining - p.length := by
  induction p generalizing s idx with
  | nil => simp [runFrom]
  | cons b rest ih =>
    obtain ⟨d, hd⟩ : ∃ d, s.data_remaining = d + 1 := by
      rcases h' : s.data_remaining with _ | d
      · rw [h'] at h
        simp at h
      · exact ⟨d, rfl⟩
    have h1 := decStep_dr_succ s idx b d hd
    have h2 : rest.length ≤ (decStep s idx b).data_remaining := by
      rw [h1]
      rw [hd] at h
      simp only [List.length_cons] at h
      omega
    rw [runFrom, ih _ _ h2, h1, hd]
    simp only [List.length_cons]
    omega

theorem runFrom_idx_irrel (p : List Nat) (s : Sys) (idx idx' : Nat)
    (h : p.length ≤ s.data_remaining) :
    runFrom s idx p = runFrom s idx' p := by
  induction p generalizing s idx idx' with
  | nil => rfl
  | cons b rest ih =>
    obtain ⟨d, hd⟩ : ∃ d, s.data_remaining = d + 1 := by
      rcases h' : s.data_remaining with _ | d
      · rw [h'] at h
        simp at h
      · exact ⟨d, rfl⟩
    have h2 : rest.length ≤ (decStep s idx' b).data_remaining := by
      rw [decStep_dr_succ s idx' b d hd]
      rw [hd] at h
      simp only [List.length_cons] at h
      omega
    rw [runFrom, runFrom, decStep_idx_irrel s idx idx' b (by omega)]
    exact ih _ _ _ h2

/-- While enough payload is pending, splitting the input into transfers
does not matter: the run over the transfer list equals the run over the
concatenated bytes. -/
theorem runChunks_payload (cs : List (List Nat)) (s : Sys)
    (h : cs.flatten.length ≤ s.data_remaining) :
    runChunks s cs = runFrom s 0 cs.flatten := by
  induction cs generalizing s with
  | nil => rfl
  | cons c rest ih =>
    have hlen : c.length + rest.flatten.length = (c :: rest).flatten.length := by
      simp
    have hc : c.length ≤ s.data_remaining := by omega
    have h2 : rest.flatten.length ≤ (runFrom s 0 c).data_remaining := by
      rw [runFrom_dr c s 0 hc]; omega
    calc runChunks s (c :: rest)
        = runChunks (runFrom s 0 c) rest := by simp [runChunks, runChunk]
      _ = runFrom (runFrom s 0 c) 0 rest.flatten := ih _ h2
      _ = runFrom (runFrom s 0 c) (0 + c.length) rest.flatten :=
          runFrom_idx_irrel _ _ _ _ h2
      _ = runFrom s 0 (c ++ rest.flatten) := (runFrom_append s 0 c rest.flatten).symm

/-- The acknowledgment characterization of one decoder step: a `0xFF`
byte is staged exactly when the consumed byte is the last of a pending
payload. -/
theorem ackIfDone_toPC_char (s : Sys) :
    (ackIfDone s).toPC =
      s.toPC ++ (if s.data_remaining = 0 then [255] else []) := by
  unfold ackIfDone
  split <;> simp_all

theorem decStep_toPC (s : Sys) (idx b : Nat) :
    (decStep s idx b).toPC =
      s.toPC ++ (if s.data_remaining = 1 then [255] else []) := by
  rcases s with ⟨cmd, pb, cb, ci, li, dr, wp, L, t, sn, ip, g, bp, bc, ic, o⟩
  simp only
  cases dr with
  | zero =>
    show (headerByte _ idx).toPC = _
    rcases idx with _ | _ | _ | k <;> simp [headerByte]
  | succ d =>
    show (payloadByte _ _).toPC = _
    simp only [payloadByte]
    rw [ackIfDone_toPC_char]
    split
    · rw [colorAdvance_toPC, handOff_toPC, pixelWrite_toPC,
          colorAdvance_dr, handOff_dr, pixelWrite_dr]
      simp [Nat.succ_sub_one]
    · simp [Nat.succ_sub_one]

/-- A 3-byte header at the start of a transfer while between commands:
opcode latched, cursors rewound, little-endian length latched. -/
theorem runFrom_header (s : Sys) (op lo hi : Nat) (h : s.data_remaining = 0) :
    runFrom s 0 [op, lo, hi] =
      { s with command := op % 256, previous_byte := lo % 256,
               current_byte := hi % 256, color_index := 0, led_index := 0,
               wptr := some 0,
               data_remaining := ((hi % 256) <<< 8) ||| (lo % 256) } := by
  rcases s with ⟨cmd, pb, cb, ci, li, dr, wp, L, t, sn, ip, g, bp, bc, ic, o⟩
  simp only at h
  subst h
  rfl

/-- Consuming payload bytes of a command whose opcode is not 2 leaves
everything but the byte history, the countdown and the completion
acknowledgment untouched. -/
theorem runFrom_nonpixel (p : List Nat) (s : Sys) (idx m : Nat)
    (hc : s.command ≠ 2) (hd : s.data_remaining = p.length + m) :
    (runFrom s idx p).command = s.command ∧
    (runFrom s idx p).leds = s.leds ∧
    (runFrom s idx p).wptr = s.wptr ∧
    (runFrom s idx p).color_index = s.color_index ∧
    (runFrom s idx p).led_index = s.led_index ∧
    (runFrom s idx p).gie = s.gie ∧
    (runFrom s idx p).isr_ptr = s.isr_ptr ∧
    (runFrom s idx p).data_remaining = m ∧
    (runFrom s idx p).toPC = s.toPC ++ (if m = 0 ∧ p ≠ [] then [255] else []) := by
  induction p generalizing s idx with
  | nil =>
    refine ⟨rfl, rfl, rfl, rfl, rfl, rfl, rfl, ?_, ?_⟩
    · simpa using hd
    · simp [runFrom]
  | cons b rest ih =>
    rw [runFrom, decStep_nonpixel s idx b (rest.length + m) hc
        (by rw [hd]; simp only [List.length_cons]; omega)]
    set s1 := { s with
      previous_byte := s.current_byte,
      current_byte := b % 256,
      data_remaining := rest.length + m,
      toPC := if rest.length + m = 0 then s.toPC ++ [255] else s.toPC } with hs1
    have hc1 : s1.command ≠ 2 := hc
    have hd1 : s1.data_remaining = rest.length + m := rfl
    obtain ⟨e1, e2, e3, e4, e5, e6, e7, e8, e9⟩ := ih s1 (idx + 1) hc1 hd1
    refine ⟨by rw [e1], by rw [e2], by rw [e3], by rw [e4], by rw [e5],
            by rw [e6], by rw [e7], e8, ?_⟩
    rw [e9]
    by_cases hm : m = 0
    · subst hm
      rcases rest with _ | ⟨r, rs⟩ <;> simp [hs1]
    · rcases rest with _ | ⟨r, rs⟩ <;> simp [hs1, hm]

/-- Consuming opcode-2 payload bytes with the write cursor deactivated:
the bytes are counted (and acknowledged on completion) but the buffer is
untouched and the cursor stays deactivated. -/
theorem runFrom_inactive (p : List Nat) (s : Sys) (idx m : Nat)
    (hc : s.command = 2) (hw : s.wptr = none)
    (hd : s.data_remaining = p.length + m) :
    (runFrom s idx p).command = 2 ∧
    (runFrom s idx p).leds = s.leds ∧
    (runFrom s idx p).wptr = none ∧
    (runFrom s idx p).data_remaining = m ∧
    (runFrom s idx p).toPC = s.toPC ++ (if m = 0 ∧ p ≠ [] then [255] else []) := by
  induction p generalizing s idx with
  | nil =>
    refine ⟨hc, rfl, hw, ?_, ?_⟩
    · simpa using hd
    · simp [runFrom]
  | cons b rest ih =>
    rw [runFrom, decStep_inactive s idx b (rest.length + m) hc hw
        (by rw [hd]; simp only [List.length_cons]; omega)]
    set s1 := { s with
      previous_byte := s.current_byte,
      current_byte := b % 256,
      data_remaining := rest.length + m,
      color_index := if s.color_index + 1 = 3 then 0 else s.color_index + 1,
      led_index := if s.color_index + 1 = 3 then (s.led_index + 1) % 256 else s.led_index,
      wptr := none,
      gie := if rest.length + m = 0 then true else s.gie,
      isr_ptr := if rest.length + m = 0 then 0 else s.isr_ptr,
      toPC := if rest.length + m = 0 then s.toPC ++ [255] else s.toPC } with hs1
    have hc1 : s1.command = 2 := hc
    have hw1 : s1.wptr = none := rfl
    have hd1 : s1.data_remaining = rest.length + m := rfl
    obtain ⟨e1, e2, e3, e4, e5⟩ := ih s1 (idx + 1) hc1 hw1 hd1
    refine ⟨e1, by rw [e2], e3, e4, ?_⟩
    rw [e5]
    by_cases hm : m = 0
    · subst hm
      rcases rest with _ | ⟨r, rs⟩ <;> simp [hs1]
    · rcases rest with _ | ⟨r, rs⟩ <;> simp [hs1, hm]

/-- One complete R,G,B payload triple with an active write cursor:
entry `led_index` receives G,R,B in stored order and the cursor advances
(deactivating at the capacity bound). -/
theorem decStep_triple (s : Sys) (idx a b c d : Nat) (hc : s.command = 2)
    (hci : s.color_index = 0) (hw : s.wptr = some (3 * s.led_index))
    (hl : s.led_index < 128) (hd : s.data_remaining = d + 3) :
    decStep (decStep (decStep s idx a) (idx + 1) b) (idx + 2) c =
      { s with previous_byte := b % 256, current_byte := c % 256,
               data_remaining := d,
               leds := updFn (updFn (updFn s.leds (3 * s.led_index + 1) (a % 256))
                        (3 * s.led_index) (b % 256)) (3 * s.led_index + 2) (c % 256),
               color_index := 0, led_index := s.led_index + 1,
               wptr := if s.led_index + 1 = 128 then none
                       else some (3 * s.led_index + 3),
               gie := if d = 0 then true else s.gie,
               isr_ptr := if d = 0 then 0 else s.isr_ptr,
               toPC := if d = 0 then s.toPC ++ [255] else s.toPC } := by
  have hne2 : ¬(d + 2 = 0) := by omega
  have hne1 : ¬(d + 1 = 0) := by omega
  have h1 := decStep_red s idx a (3 * s.led_index) (d + 2) hc hci hw (by omega)
  rw [if_neg hne2, if_neg hne2, if_neg hne2] at h1
  have h2 := decStep_green
    { s with previous_byte := s.current_byte, current_byte := a % 256,
             data_remaining := d + 2,
             leds := updFn s.leds (3 * s.led_index + 1) (a % 256),
             color_index := 1 }
    (idx + 1) b (3 * s.led_index) (d + 1) hc rfl hw
    (by show d + 2 = d + 1 + 1; omega)
  rw [if_neg hne1, if_neg hne1, if_neg hne1] at h2
  have h3 := decStep_blue
    { s with previous_byte := a % 256, current_byte := b % 256,
             data_remaining := d + 1,
             leds := updFn (updFn s.leds (3 * s.led_index + 1) (a % 256))
                      (3 * s.led_index) (b % 256),
             color_index := 2 }
    (idx + 2) c (3 * s.led_index) d hc rfl hw hl rfl
  calc decStep (decStep (decStep s idx a) (idx + 1) b) (idx + 2) c
      = decStep (decStep
          { s with previous_byte := s.current_byte, current_byte := a % 256,
                   data_remaining := d + 2,
                   leds := updFn s.leds (3 * s.led_index + 1) (a % 256),
                   color_index := 1 }
          (idx + 1) b) (idx + 2) c := by rw [h1]
    _ = decStep
          { s with previous_byte := a % 256, current_byte := b % 256,
                   data_remaining := d + 1,
                   leds := updFn (updFn s.leds (3 * s.led_index + 1) (a % 256))
                            (3 * s.led_index) (b % 256),
                   color_index := 2 }
          (idx + 2) c := by rw [h2]
    _ = _ := by rw [h3]

theorem getD_cons3 (a b c : Nat) (t : List Nat) (k : Nat) :
    (a :: b :: c :: t).getD (k + 3) 0 = t.getD k 0 := by
  simp [List.getD_cons_succ]

/-- Master lemma for an opcode-2 payload of `K` complete triples starting
from a triple boundary: triples land in consecutive entries in G,R,B
order, everything else in the buffer is untouched, the countdown drops by
`3 * K`, and completion acknowledges exactly once. -/
theorem runFrom_triples (K : Nat) (p : List Nat) (s : Sys) (idx m : Nat)
    (hp : p.length = 3 * K) (hc : s.command = 2) (hci : s.color_index = 0)
    (hlK : s.led_index + K ≤ 128)
    (hw : s.wptr = (if s.led_index = 128 then none else some (3 * s.led_index)))
    (hd : s.data_remaining = 3 * K + m) :
    (runFrom s idx p).command = 2 ∧
    (runFrom s idx p).color_index = 0 ∧
    (runFrom s idx p).led_index = s.led_index + K ∧
    (runFrom s idx p).wptr =
      (if s.led_index + K = 128 then none else some (3 * (s.led_index + K))) ∧
    (runFrom s idx p).data_remaining = m ∧
    (runFrom s idx p).toPC = s.toPC ++ (if m = 0 ∧ K ≠ 0 then [255] else []) ∧
    (∀ i, i < K →
      (runFrom s idx p).leds (3 * (s.led_index + i)) = p.getD (3 * i + 1) 0 % 256 ∧
      (runFrom s idx p).leds (3 * (s.led_index + i) + 1) = p.getD (3 * i) 0 % 256 ∧
      (runFrom s idx p).leds (3 * (s.led_index + i) + 2) = p.getD (3 * i + 2) 0 % 256) ∧
    (∀ j, j < 3 * s.led_index ∨ 3 * (s.led_index + K) ≤ j →
      (runFrom s idx p).leds j = s.leds j) := by
  induction K generalizing p s idx with
  | zero =>
    have hp0 : p = [] := List.length_eq_zero.mp (by omega)
    subst hp0
    refine ⟨hc, hci, by simp [runFrom], ?_, by simpa using hd,
            by simp [runFrom], ?_, ?_⟩
    · simpa using hw
    · intro i hi
      omega
    · intro j hj
      rfl
  | succ n ih =>
    rcases p with _ | ⟨a, p1⟩
    · simp only [List.length_nil] at hp
      omega
    rcases p1 with _ | ⟨b, p2⟩
    · simp only [List.length_cons, List.length_nil] at hp
      omega
    rcases p2 with _ | ⟨c, p'⟩
    · simp only [List.length_cons, List.length_nil] at hp
      omega
    have hp' : p'.length = 3 * n := by
      simp only [List.length_cons] at hp
      omega
    have hl128 : s.led_index < 128 := by omega
    rw [if_neg (by omega)] at hw
    have htrip := decStep_triple s idx a b c (3 * n + m) hc hci hw hl128
      (by rw [hd]; ring)
    have hrun : runFrom s idx (a :: b :: c :: p') =
        runFrom (decStep (decStep (decStep s idx a) (idx + 1) b) (idx + 2) c)
          (idx + 3) p' := rfl
    obtain ⟨e1, e2, e3, e4, e5, e6, e7, e8⟩ := ih p'
      { s with previous_byte := b % 256, current_byte := c % 256,
               data_remaining := 3 * n + m,
               leds := updFn (updFn (updFn s.leds (3 * s.led_index + 1) (a % 256))
                        (3 * s.led_index) (b % 256)) (3 * s.led_index + 2) (c % 256),
               color_index := 0, led_index := s.led_index + 1,
               wptr := if s.led_index + 1 = 128 then none
                       else some (3 * s.led_index + 3),
               gie := if 3 * n + m = 0 then true else s.gie,
               isr_ptr := if 3 * n + m = 0 then 0 else s.isr_ptr,
               toPC := if 3 * n + m = 0 then s.toPC ++ [255] else s.toPC }
      (idx + 3) hp' hc rfl
      (by show s.led_index + 1 + n ≤ 128
          omega)
      (by show (if s.led_index + 1 = 128 then (none : Option Nat)
                else some (3 * s.led_index + 3)) =
            (if s.led_index + 1 = 128 then none else some (3 * (s.led_index + 1)))
          by_cases h128 : s.led_index + 1 = 128 <;> simp [h128, Nat.mul_add])
      rfl
    rw [hrun, htrip]
    dsimp only at e3 e4 e6 e7 e8
    refine ⟨e1, e2, ?_, ?_, e5, ?_, ?_, ?_⟩
    · rw [e3]
      omega
    · rw [e4]
      have hx : s.led_index + 1 + n = s.led_index + (n + 1) := by omega
      rw [hx]
    · rw [e6]
      rcases n with _ | k <;> by_cases hm : m = 0 <;>
        simp [hm, Nat.mul_succ]
    · intro i hi
      rcases i with _ | k
      · have hlt0 : 3 * (s.led_index + 0) < 3 * (s.led_index + 1) := by omega
        have hlt1 : 3 * (s.led_index + 0) + 1 < 3 * (s.led_index + 1) := by omega
        have hlt2 : 3 * (s.led_index + 0) + 2 < 3 * (s.led_index + 1) := by omega
        refine ⟨?_, ?_, ?_⟩
        · rw [e8 _ (Or.inl hlt0)]
          simp [updFn]
        · rw [e8 _ (Or.inl hlt1)]
          simp [updFn]
        · rw [e8 _ (Or.inl hlt2)]
          simp [updFn]
      · obtain ⟨f1, f2, f3⟩ := e7 k (by omega)
        have hidx : s.led_index + (k + 1) = s.led_index + 1 + k := by omega
        refine ⟨?_, ?_, ?_⟩
        · rw [hidx, f1, show 3 * (k + 1) + 1 = 3 * k + 1 + 3 from by ring,
              getD_cons3]
        · rw [hidx, f2, show 3 * (k + 1) = 3 * k + 3 from by ring, getD_cons3]
        · rw [hidx, f3, show 3 * (k + 1) + 2 = 3 * k + 2 + 3 from by ring,
              getD_cons3]
    · intro j hj
      rcases hj with hj | hj
      · rw [e8 j (Or.inl (by omega))]
        rw [updFn_other _ _ _ _ (by omega), updFn_other _ _ _ _ (by omega),
            updFn_other _ _ _ _ (by omega)]
      · rw [e8 j (Or.inr (by omega))]
        rw [updFn_other _ _ _ _ (by omega), updFn_other _ _ _ _ (by omega),
            updFn_other _ _ _ _ (by omega)]

theorem getD_mem (l : List Nat) (i : Nat) (h : i < l.length) :
    l.getD i 0 ∈ l := by
  induction l generalizing i with
  | nil => simp at h
  | cons x t ih =>
    rcases i with _ | k
    · simp
    · simp only [List.getD_cons_succ]
      exact List.mem_cons_of_mem _ (ih _ (by simpa using h))

/-- A command whose whole payload is split across the remainder of its
header transfer and any number of follow-up transfers is processed
exactly like the concatenated byte sequence. -/
theorem runChunks_cmd (s : Sys) (op lo hi : Nat) (c0 : List Nat)
    (cs : List (List Nat)) (hdr : s.data_remaining = 0)
    (hlen : c0.length + cs.flatten.length ≤ ((hi % 256) <<< 8) ||| (lo % 256)) :
    runChunks s ((op :: lo :: hi :: c0) :: cs) =
      runFrom (runFrom s 0 [op, lo, hi]) 3 (c0 ++ cs.flatten) := by
  have hH := runFrom_header s op lo hi hdr
  have hdr1 : (runFrom s 0 [op, lo, hi]).data_remaining =
      ((hi % 256) <<< 8) ||| (lo % 256) := by rw [hH]
  have hc0 : c0.length ≤ (runFrom s 0 [op, lo, hi]).data_remaining := by
    rw [hdr1]
    omega
  have hdr2 : (runFrom (runFrom s 0 [op, lo, hi]) 3 c0).data_remaining =
      (((hi % 256) <<< 8) ||| (lo % 256)) - c0.length := by
    rw [runFrom_dr c0 _ 3 hc0, hdr1]
  have h1 : runChunks s ((op :: lo :: hi :: c0) :: cs) =
      runChunks (runFrom (runFrom s 0 [op, lo, hi]) 3 c0) cs := by
    show runChunks (runChunk s (op :: lo :: hi :: c0)) cs = _
    rw [show runChunk s (op :: lo :: hi :: c0) =
          runFrom s 0 ([op, lo, hi] ++ c0) from rfl]
    rw [runFrom_append]
    norm_num
  have hfl : cs.flatten.length ≤
      (runFrom (runFrom s 0 [op, lo, hi]) 3 c0).data_remaining := by
    rw [hdr2]
    omega
  rw [h1, runChunks_payload cs _ hfl,
      runFrom_idx_irrel cs.flatten _ 0 (3 + c0.length) hfl,
      show (3 : Nat) + c0.length = 3 + c0.length from rfl,
      ← runFrom_append]

/-! ## Claim theorems -/

/-- Claim C1: for a command with opcode 2 and declared length
`L = 3 * K`, `K ≤ LED_COUNT`, after the decoder consumes the 3 header
bytes and the `L` payload bytes (split across transfers in any way),
pixel-buffer entry `i` holds g = payload byte `3i+1`, r = payload byte
`3i`, b = payload byte `3i+2` for every `i < K`, no other buffer byte is
modified, and (for `K ≠ 0`) one `0xFF` acknowledgment is staged. -/
theorem opcode2_payload_sets_pixels (s : Sys) (lo hi K : Nat) (c0 : List Nat)
    (cs : List (List Nat)) (p : List Nat)
    (hdr : s.data_remaining = 0) (hlo : lo < 256) (hhi : hi < 256)
    (hp : p = c0 ++ cs.flatten) (hL : (hi <<< 8) ||| lo = 3 * K)
    (hK : K ≤ LED_COUNT) (hlen : p.length = 3 * K)
    (hbytes : ∀ x ∈ p, x < 256) :
    (∀ i, i < K →
      (runChunks s ((2 :: lo :: hi :: c0) :: cs)).leds (3 * i) =
        p.getD (3 * i + 1) 0 ∧
      (runChunks s ((2 :: lo :: hi :: c0) :: cs)).leds (3 * i + 1) =
        p.getD (3 * i) 0 ∧
      (runChunks s ((2 :: lo :: hi :: c0) :: cs)).leds (3 * i + 2) =
        p.getD (3 * i + 2) 0) ∧
    (∀ j, 3 * K ≤ j →
      (runChunks s ((2 :: lo :: hi :: c0) :: cs)).leds j = s.leds j) ∧
    (runChunks s ((2 :: lo :: hi :: c0) :: cs)).toPC =
      s.toPC ++ (if K = 0 then [] else [255]) := by
  have hmlo : lo % 256 = lo := Nat.mod_eq_of_lt hlo
  have hmhi : hi % 256 = hi := Nat.mod_eq_of_lt hhi
  have hLm : ((hi % 256) <<< 8) ||| (lo % 256) = 3 * K := by
    rw [hmlo, hmhi]
    exact hL
  have hsplit := runChunks_cmd s 2 lo hi c0 cs hdr
    (by rw [hLm]
        have := congrArg List.length hp
        simp only [List.length_append] at this
        omega)
  have hH := runFrom_header s 2 lo hi hdr
  rw [hsplit, hH, ← hp]
  have htr := runFrom_triples K p
    { s with command := 2 % 256, previous_byte := lo % 256,
             current_byte := hi % 256, color_index := 0, led_index := 0,
             wptr := some 0,
             data_remaining := ((hi % 256) <<< 8) ||| (lo % 256) }
    3 0 hlen rfl rfl (by show 0 + K ≤ 128; simpa [LED_COUNT] using hK)
    (by show some 0 = if (0 : Nat) = 128 then none else some (3 * 0)
        norm_num)
    (by show ((hi % 256) <<< 8) ||| (lo % 256) = 3 * K + 0
        rw [hLm]
        omega)
  obtain ⟨e1, e2, e3, e4, e5, e6, e7, e8⟩ := htr
  dsimp only at e6 e7 e8
  refine ⟨?_, ?_, ?_⟩
  · intro i hi2
    obtain ⟨f1, f2, f3⟩ := e7 i hi2
    rw [show (0 : Nat) + i = i from by omega] at f1 f2 f3
    have hb1 : p.getD (3 * i + 1) 0 % 256 = p.getD (3 * i + 1) 0 :=
      Nat.mod_eq_of_lt (hbytes _ (getD_mem p _ (by omega)))
    have hb0 : p.getD (3 * i) 0 % 256 = p.getD (3 * i) 0 :=
      Nat.mod_eq_of_lt (hbytes _ (getD_mem p _ (by omega)))
    have hb2 : p.getD (3 * i + 2) 0 % 256 = p.getD (3 * i + 2) 0 :=
      Nat.mod_eq_of_lt (hbytes _ (getD_mem p _ (by omega)))
    exact ⟨by rw [f1, hb1], by rw [f2, hb0], by rw [f3, hb2]⟩
  · intro j hj
    rw [e8 j (Or.inr (by omega))]
  · rw [e6]
    by_cases hK0 : K = 0 <;> simp [hK0]

/-- Witness for C1 at Scenario A: header `[2, 0x03, 0x00]`, payload
`[10, 20, 30]` in one transfer, from the power-on state. -/
theorem opcode2_payload_sets_pixels_scenarioA :
    (∀ i, i < 1 →
      (runChunks init [[2, 3, 0, 10, 20, 30]]).leds (3 * i) =
        [10, 20, 30].getD (3 * i + 1) 0 ∧
      (runChunks init [[2, 3, 0, 10, 20, 30]]).leds (3 * i + 1) =
        [10, 20, 30].getD (3 * i) 0 ∧
      (runChunks init [[2, 3, 0, 10, 20, 30]]).leds (3 * i + 2) =
        [10, 20, 30].getD (3 * i + 2) 0) ∧
    (∀ j, 3 * 1 ≤ j →
      (runChunks init [[2, 3, 0, 10, 20, 30]]).leds j = init.leds j) ∧
    (runChunks init [[2, 3, 0, 10, 20, 30]]).toPC =
      init.toPC ++ (if 1 = 0 then [] else [255]) :=
  opcode2_payload_sets_pixels init 3 0 1 [10, 20, 30] [] [10, 20, 30]
    rfl (by decide) (by decide) rfl (by decide) (by decide) rfl (by decide)

/-- Claim C9: while between commands, an inbound byte at position 3 or
later of a transfer changes no decoder state other than the byte
history: opcode, declared length, write cursor, color phase, LED index,
pixel buffer and staged acknowledgments are all untouched. -/
theorem midchunk_idle_bytes_discarded (s : Sys) (idx b : Nat)
    (hdr : s.data_remaining = 0) (hidx : 3 ≤ idx) :
    (decStep s idx b).command = s.command ∧
    (decStep s idx b).data_remaining = 0 ∧
    (decStep s idx b).wptr = s.wptr ∧
    (decStep s idx b).color_index = s.color_index ∧
    (decStep s idx b).led_index = s.led_index ∧
    (decStep s idx b).leds = s.leds ∧
    (decStep s idx b).toPC = s.toPC := by
  rw [decStep_hdr_ge3 s idx b hdr hidx]
  exact ⟨rfl, hdr, rfl, rfl, rfl, rfl, rfl⟩

/-- Witness for C9: a byte arriving at position 3 of a transfer right
after a zero-length header. -/
theorem midchunk_idle_bytes_discarded_witness :
    (decStep (runChunks init [[2, 0, 0]]) 3 77).command =
      (runChunks init [[2, 0, 0]]).command ∧
    (decStep (runChunks init [[2, 0, 0]]) 3 77).data_remaining = 0 ∧
    (decStep (runChunks init [[2, 0, 0]]) 3 77).wptr =
      (runChunks init [[2, 0, 0]]).wptr ∧
    (decStep (runChunks init [[2, 0, 0]]) 3 77).color_index =
      (runChunks init [[2, 0, 0]]).color_index ∧
    (decStep (runChunks init [[2, 0, 0]]) 3 77).led_index =
      (runChunks init [[2, 0, 0]]).led_index ∧
    (decStep (runChunks init [[2, 0, 0]]) 3 77).leds =
      (runChunks init [[2, 0, 0]]).leds ∧
    (decStep (runChunks init [[2, 0, 0]]) 3 77).toPC =
      (runChunks init [[2, 0, 0]]).toPC :=
  midchunk_idle_bytes_discarded (runChunks init [[2, 0, 0]]) 3 77
    (by decide) (by decide)

/-- Counterexample to Claim C4 as stated: after the zero-length header
`[2, 0, 0]` at the start of a transfer, the following bytes `5, 1, 0, 77`
of the same transfer are NOT parsed as a new header: the stored opcode
stays 2, no length is latched, and no acknowledgment is produced (the
claimed behavior would latch opcode 5, length 1, and acknowledge the
1-byte payload). -/
theorem header_not_reparsed_midchunk :
    (runChunks init [[2, 0, 0, 5, 1, 0, 77]]).command = 2 ∧
    (runChunks init [[2, 0, 0, 5, 1, 0, 77]]).data_remaining = 0 ∧
    (runChunks init [[2, 0, 0, 5, 1, 0, 77]]).toPC = [] := by
  refine ⟨by decide, by decide, by decide⟩

/-- Amended Claim C4: once a command's payload is exhausted (or after a
zero-length header) the decoder returns to header parsing, but header
bytes are recognized only at positions 0, 1, 2 of a transfer: remaining
bytes of the current transfer at positions 3 and later are silently
discarded, and the next 3-byte header is parsed at the start of the next
transfer. -/
theorem next_header_at_chunk_start (s : Sys) (idx b op lo hi : Nat)
    (hdr : s.data_remaining = 0) (hidx : 3 ≤ idx)
    (hop : op < 256) (hlo : lo < 256) (hhi : hi < 256) :
    (decStep s idx b) =
      { s with previous_byte := s.current_byte, current_byte := b % 256 } ∧
    (runChunks s [[op, lo, hi]]).command = op ∧
    (runChunks s [[op, lo, hi]]).data_remaining = (hi <<< 8) ||| lo ∧
    (runChunks s [[op, lo, hi]]).toPC = s.toPC := by
  refine ⟨decStep_hdr_ge3 s idx b hdr hidx, ?_, ?_, ?_⟩ <;>
    rw [show runChunks s [[op, lo, hi]] = runFrom s 0 [op, lo, hi] from rfl,
        runFrom_header s op lo hi hdr] <;>
    simp [Nat.mod_eq_of_lt, hop, hlo, hhi]

/-- Witness for the amended C4: zero-length header, then discarded
trailing byte, then a fresh header at the start of the next transfer. -/
theorem next_header_at_chunk_start_witness :
    (decStep (runChunks init [[2, 0, 0]]) 3 99) =
      { runChunks init [[2, 0, 0]] with
        previous_byte := (runChunks init [[2, 0, 0]]).current_byte,
        current_byte := 99 % 256 } ∧
    (runChunks (runChunks init [[2, 0, 0]]) [[5, 1, 0]]).command = 5 ∧
    (runChunks (runChunks init [[2, 0, 0]]) [[5, 1, 0]]).data_remaining =
      (0 <<< 8) ||| 1 ∧
    (runChunks (runChunks init [[2, 0, 0]]) [[5, 1, 0]]).toPC =
      (runChunks init [[2, 0, 0]]).toPC :=
  next_header_at_chunk_start (runChunks init [[2, 0, 0]]) 3 99 5 1 0
    (by decide) (by decide) (by decide) (by decide) (by decide)

/-- Claim C3: a `0xFF` acknowledgment is appended to the staged output
exactly when the consumed byte is the last payload byte of a command
with nonzero declared length (`data_remaining = 1` before the byte),
regardless of opcode and in completion order (appends preserve order);
and a header declaring length 0 latches `data_remaining = 0`, so there
is no payload phase and no acknowledgment. -/
theorem ack_iff_last_payload_byte (s : Sys) (idx b : Nat) (s2 : Sys)
    (op : Nat) (hdr2 : s2.data_remaining = 0) :
    (decStep s idx b).toPC =
      s.toPC ++ (if s.data_remaining = 1 then [255] else []) ∧
    (runFrom s2 0 [op, 0, 0]).data_remaining = 0 ∧
    (runFrom s2 0 [op, 0, 0]).toPC = s2.toPC := by
  refine ⟨decStep_toPC s idx b, ?_, ?_⟩ <;>
    rw [runFrom_header s2 op 0 0 hdr2] <;> rfl

/-- Witness for C3: the completing byte of a 1-byte payload appends the
acknowledgment; a zero-length header from the power-on state appends
nothing. -/
theorem ack_iff_last_payload_byte_witness :
    (decStep (runChunks init [[9, 1, 0]]) 3 42).toPC =
      (runChunks init [[9, 1, 0]]).toPC ++
        (if (runChunks init [[9, 1, 0]]).data_remaining = 1 then [255]
         else []) ∧
    (runFrom init 0 [7, 0, 0]).data_remaining = 0 ∧
    (runFrom init 0 [7, 0, 0]).toPC = init.toPC :=
  ack_iff_last_payload_byte (runChunks init [[9, 1, 0]]) 3 42 init 7
    (by decide)

/-- Claim C7: a command whose opcode is not 2 consumes its whole payload
without touching any pixel-buffer byte and without performing the
hand-off (the ISR read cursor is not published and the activation flag
is not set), while one `0xFF` acknowledgment is still staged. -/
theorem non_pixel_opcode_no_buffer_effect (s : Sys) (op lo hi : Nat)
    (c0 : List Nat) (cs : List (List Nat)) (p : List Nat)
    (hdr : s.data_remaining = 0) (hop : op < 256) (hop2 : op ≠ 2)
    (hlo : lo < 256) (hhi : hi < 256)
    (hp : p = c0 ++ cs.flatten) (hL : (hi <<< 8) ||| lo = p.length)
    (hpos : 0 < p.length) :
    (∀ j, (runChunks s ((op :: lo :: hi :: c0) :: cs)).leds j = s.leds j) ∧
    (runChunks s ((op :: lo :: hi :: c0) :: cs)).gie = s.gie ∧
    (runChunks s ((op :: lo :: hi :: c0) :: cs)).isr_ptr = s.isr_ptr ∧
    (runChunks s ((op :: lo :: hi :: c0) :: cs)).toPC = s.toPC ++ [255] := by
  have hmlo : lo % 256 = lo := Nat.mod_eq_of_lt hlo
  have hmhi : hi % 256 = hi := Nat.mod_eq_of_lt hhi
  have hLm : ((hi % 256) <<< 8) ||| (lo % 256) = p.length := by
    rw [hmlo, hmhi]
    exact hL
  have hsplit := runChunks_cmd s op lo hi c0 cs hdr
    (by rw [hLm]
        have := congrArg List.length hp
        simp only [List.length_append] at this
        omega)
  have hH := runFrom_header s op lo hi hdr
  rw [hsplit, hH, ← hp]
  have hne : p ≠ [] := by
    intro hnil
    rw [hnil] at hpos
    simp at hpos
  obtain ⟨g1, g2, g3, g4, g5, g6, g7, g8, g9⟩ := runFrom_nonpixel p
    { s with command := op % 256, previous_byte := lo % 256,
             current_byte := hi % 256, color_index := 0, led_index := 0,
             wptr := some 0,
             data_remaining := ((hi % 256) <<< 8) ||| (lo % 256) }
    3 0
    (by show op % 256 ≠ 2
        rw [Nat.mod_eq_of_lt hop]
        exact hop2)
    (by show ((hi % 256) <<< 8) ||| (lo % 256) = p.length + 0
        rw [hLm]
        omega)
  dsimp only at g2 g6 g7 g9
  refine ⟨?_, g6, g7, ?_⟩
  · intro j
    rw [g2]
  · rw [g9]
    simp [hne]

/-- Witness for C7 at Scenario B: header `[5, 0x02, 0x00]`, payload
`[0xAA, 0xBB]`, from the power-on state. -/
theorem non_pixel_opcode_no_buffer_effect_scenarioB :
    (∀ j, (runChunks init [[5, 2, 0, 170, 187]]).leds j = init.leds j) ∧
    (runChunks init [[5, 2, 0, 170, 187]]).gie = init.gie ∧
    (runChunks init [[5, 2, 0, 170, 187]]).isr_ptr = init.isr_ptr ∧
    (runChunks init [[5, 2, 0, 170, 187]]).toPC = init.toPC ++ [255] :=
  non_pixel_opcode_no_buffer_effect init 5 2 0 [170, 187] [] [170, 187]
    rfl (by decide) (by decide) (by decide) (by decide) rfl (by decide)
    (by decide)

theorem getD_take (l : List Nat) (n i : Nat) (h : i < n) :
    (l.take n).getD i 0 = l.getD i 0 := by
  induction l generalizing n i with
  | nil => simp
  | cons x t ih =>
    rcases n with _ | n
    · omega
    rcases i with _ | k
    · simp
    · simp only [List.take_succ_cons, List.getD_cons_succ]
      exact ih n k (by omega)

theorem getD_drop (l : List Nat) (n j : Nat) :
    (l.drop n).getD j 0 = l.getD (n + j) 0 := by
  induction l generalizing n with
  | nil => simp
  | cons x t ih =>
    rcases n with _ | n
    · simp
    · simp only [List.drop_succ_cons]
      rw [ih n]
      have : n + 1 + j = (n + j) + 1 := by omega
      rw [this, List.getD_cons_succ]

/-- Counterexample to Claim C6 as stated: opcode-2 command with declared
length 4 (one complete triple plus a 1-byte partial group).  Before the
partial byte is consumed, the red channel of entry 1 (buffer byte 4) is
0 — as after the identical length-3 command — but consuming the partial
byte 40 stores it there, so the buffer is NOT unchanged by the partial
group. -/
theorem partial_group_writes_red :
    (runChunks init [[2, 3, 0, 10, 20, 30]]).leds 4 = 0 ∧
    (runChunks init [[2, 4, 0, 10, 20, 30, 40]]).leds 4 = 40 :=
  ⟨by decide, by decide⟩

/-- Amended Claim C6: for an opcode-2 command whose declared length is
`3 * K + r` with `r` equal to 1 or 2 and `K < LED_COUNT`, the trailing
partial group is consumed while keeping decoding synchronized, but it is
partially written: its first byte is stored into the red channel
(byte offset 1) of entry `K`, a second byte into the green channel
(byte offset 0); the blue channel of entry `K` and every byte from
entry `K + 1` onwards are unchanged, and the write cursor does not
advance past entry `K`. -/
theorem partial_group_partial_write (s : Sys) (lo hi K r : Nat)
    (c0 : List Nat) (cs : List (List Nat)) (p : List Nat)
    (hdr : s.data_remaining = 0) (hlo : lo < 256) (hhi : hi < 256)
    (hp : p = c0 ++ cs.flatten) (hL : (hi <<< 8) ||| lo = 3 * K + r)
    (hr : r = 1 ∨ r = 2) (hK : K < LED_COUNT)
    (hlen : p.length = 3 * K + r) (hbytes : ∀ x ∈ p, x < 256) :
    (∀ i, i < K →
      (runChunks s ((2 :: lo :: hi :: c0) :: cs)).leds (3 * i) =
        p.getD (3 * i + 1) 0 ∧
      (runChunks s ((2 :: lo :: hi :: c0) :: cs)).leds (3 * i + 1) =
        p.getD (3 * i) 0 ∧
      (runChunks s ((2 :: lo :: hi :: c0) :: cs)).leds (3 * i + 2) =
        p.getD (3 * i + 2) 0) ∧
    (runChunks s ((2 :: lo :: hi :: c0) :: cs)).leds (3 * K + 1) =
      p.getD (3 * K) 0 ∧
    (r = 2 → (runChunks s ((2 :: lo :: hi :: c0) :: cs)).leds (3 * K) =
      p.getD (3 * K + 1) 0) ∧
    (r = 1 → (runChunks s ((2 :: lo :: hi :: c0) :: cs)).leds (3 * K) =
      s.leds (3 * K)) ∧
    (runChunks s ((2 :: lo :: hi :: c0) :: cs)).leds (3 * K + 2) =
      s.leds (3 * K + 2) ∧
    (∀ j, 3 * K + 3 ≤ j →
      (runChunks s ((2 :: lo :: hi :: c0) :: cs)).leds j = s.leds j) ∧
    (runChunks s ((2 :: lo :: hi :: c0) :: cs)).wptr = some (3 * K) ∧
    (runChunks s ((2 :: lo :: hi :: c0) :: cs)).data_remaining = 0 ∧
    (runChunks s ((2 :: lo :: hi :: c0) :: cs)).toPC = s.toPC ++ [255] := by
  have hmlo : lo % 256 = lo := Nat.mod_eq_of_lt hlo
  have hmhi : hi % 256 = hi := Nat.mod_eq_of_lt hhi
  have hLm : ((hi % 256) <<< 8) ||| (lo % 256) = 3 * K + r := by
    rw [hmlo, hmhi]
    exact hL
  have hsplit := runChunks_cmd s 2 lo hi c0 cs hdr
    (by rw [hLm]
        have := congrArg List.length hp
        simp only [List.length_append] at this
        omega)
  have hH := runFrom_header s 2 lo hi hdr
  rw [hsplit, hH, ← hp]
  have htdsplit : p = p.take (3 * K) ++ p.drop (3 * K) :=
    (List.take_append_drop _ p).symm
  have htklen : (p.take (3 * K)).length = 3 * K := by
    rw [List.length_take]
    omega
  have hrunTD : ∀ s0 : Sys, runFrom s0 3 p =
      runFrom (runFrom s0 3 (p.take (3 * K))) (3 + 3 * K) (p.drop (3 * K)) := by
    intro s0
    conv_lhs => rw [htdsplit]
    rw [runFrom_append, htklen]
  rw [hrunTD]
  obtain ⟨e1, e2, e3, e4, e5, e6, e7, e8⟩ := runFrom_triples K (p.take (3 * K))
    { s with command := 2 % 256, previous_byte := lo % 256,
             current_byte := hi % 256, color_index := 0, led_index := 0,
             wptr := some 0,
             data_remaining := ((hi % 256) <<< 8) ||| (lo % 256) }
    3 r htklen rfl rfl (by show 0 + K ≤ 128; simp [LED_COUNT] at hK; omega)
    (by show some 0 = if (0 : Nat) = 128 then none else some (3 * 0)
        norm_num)
    (by show ((hi % 256) <<< 8) ||| (lo % 256) = 3 * K + r
        exact hLm)
  dsimp only at e3 e4 e5 e6 e7 e8
  simp only [Nat.zero_add] at e3 e4 e6 e7 e8
  set T := runFrom
    { s with command := 2 % 256, previous_byte := lo % 256,
             current_byte := hi % 256, color_index := 0, led_index := 0,
             wptr := some 0,
             data_remaining := ((hi % 256) <<< 8) ||| (lo % 256) }
    3 (p.take (3 * K)) with hT
  have hwT : T.wptr = some (3 * K) := by
    rw [e4, if_neg (by simp [LED_COUNT] at hK; omega)]
  have hdroplen : (p.drop (3 * K)).length = r := by
    rw [List.length_drop]
    omega
  have hgd0 : p.getD (3 * K) 0 = (p.drop (3 * K)).getD 0 0 := by
    rw [getD_drop, Nat.add_zero]
  have hgd1 : p.getD (3 * K + 1) 0 = (p.drop (3 * K)).getD 1 0 := by
    rw [getD_drop]
  have hTleds : ∀ i, i < K →
      T.leds (3 * i) = p.getD (3 * i + 1) 0 ∧
      T.leds (3 * i + 1) = p.getD (3 * i) 0 ∧
      T.leds (3 * i + 2) = p.getD (3 * i + 2) 0 := by
    intro i hi
    obtain ⟨f1, f2, f3⟩ := e7 i hi
    rw [getD_take p (3 * K) _ (by omega)] at f1 f2 f3
    refine ⟨?_, ?_, ?_⟩
    · rw [f1, Nat.mod_eq_of_lt (hbytes _ (getD_mem p _ (by omega)))]
    · rw [f2, Nat.mod_eq_of_lt (hbytes _ (getD_mem p _ (by omega)))]
    · rw [f3, Nat.mod_eq_of_lt (hbytes _ (getD_mem p _ (by omega)))]
  have hTout : ∀ j, 3 * K ≤ j → T.leds j = s.leds j := by
    intro j hj
    exact e8 j (Or.inr hj)
  have hTtoPC : T.toPC = s.toPC := by
    rw [e6]
    have : ¬(r = 0 ∧ K ≠ 0) := by omega
    simp [this]
  rcases hr with hr1 | hr2
  · -- r = 1 : a single partial byte, stored as the red channel of entry K
    subst hr1
    rcases hq : p.drop (3 * K) with _ | ⟨x, q'⟩
    · rw [hq] at hdroplen
      simp at hdroplen
    have hq0 : q' = [] := by
      rw [hq] at hdroplen
      simpa using hdroplen
    subst hq0
    have hstep := decStep_red T (3 + 3 * K) x (3 * K) 0 e1 e2 hwT
      (by rw [e5])
    rw [show runFrom T (3 + 3 * K) [x] = decStep T (3 + 3 * K) x from rfl,
        hstep]
    have hxval : p.getD (3 * K) 0 = x := by
      rw [hgd0, hq]
      rfl
    have hxlt : x < 256 := by
      rw [← hxval]
      exact hbytes _ (getD_mem p _ (by omega))
    dsimp only
    refine ⟨?_, ?_, ?_, ?_, ?_, ?_, ?_, ?_, ?_⟩
    · intro i hi
      obtain ⟨f1, f2, f3⟩ := hTleds i hi
      refine ⟨?_, ?_, ?_⟩
      · rw [updFn_other _ _ _ _ (by omega), f1]
      · rw [updFn_other _ _ _ _ (by omega), f2]
      · rw [updFn_other _ _ _ _ (by omega), f3]
    · rw [updFn_same, hxval, Nat.mod_eq_of_lt hxlt]
    · intro h2
      omega
    · intro _
      rw [updFn_other _ _ _ _ (by omega)]
      exact hTout _ (by omega)
    · rw [updFn_other _ _ _ _ (by omega)]
      exact hTout _ (by omega)
    · intro j hj
      rw [updFn_other _ _ _ _ (by omega)]
      exact hTout _ (by omega)
    · exact hwT
    · rfl
    · rw [if_pos rfl, hTtoPC]
  · -- r = 2 : partial bytes stored as red then green of entry K
    subst hr2
    rcases hq : p.drop (3 * K) with _ | ⟨x, q1⟩
    · rw [hq] at hdroplen
      simp at hdroplen
    rcases q1 with _ | ⟨y, q2⟩
    · rw [hq] at hdroplen
      simp at hdroplen
    have hq0 : q2 = [] := by
      rw [hq] at hdroplen
      simpa using hdroplen
    subst hq0
    have hstep1 := decStep_red T (3 + 3 * K) x (3 * K) 1 e1 e2 hwT
      (by rw [e5])
    rw [if_neg (by omega), if_neg (by omega), if_neg (by omega)] at hstep1
    have hstep2 := decStep_green
      { T with previous_byte := T.current_byte, current_byte := x % 256,
               data_remaining := 1,
               leds := updFn T.leds (3 * K + 1) (x % 256),
               color_index := 1 }
      (3 + 3 * K + 1) y (3 * K) 0 e1 rfl hwT (by show (1 : Nat) = 0 + 1; omega)
    rw [show runFrom T (3 + 3 * K) [x, y] =
          decStep (decStep T (3 + 3 * K) x) (3 + 3 * K + 1) y from rfl,
        hstep1, hstep2]
    have hxval : p.getD (3 * K) 0 = x := by
      rw [hgd0, hq]
      rfl
    have hyval : p.getD (3 * K + 1) 0 = y := by
      rw [hgd1, hq]
      rfl
    have hxlt : x < 256 := by
      rw [← hxval]
      exact hbytes _ (getD_mem p _ (by omega))
    have hylt : y < 256 := by
      rw [← hyval]
      exact hbytes _ (getD_mem p _ (by omega))
    dsimp only
    refine ⟨?_, ?_, ?_, ?_, ?_, ?_, ?_, ?_, ?_⟩
    · intro i hi
      obtain ⟨f1, f2, f3⟩ := hTleds i hi
      refine ⟨?_, ?_, ?_⟩
      · rw [updFn_other _ _ _ _ (by omega), updFn_other _ _ _ _ (by omega), f1]
      · rw [updFn_other _ _ _ _ (by omega), updFn_other _ _ _ _ (by omega), f2]
      · rw [updFn_other _ _ _ _ (by omega), updFn_other _ _ _ _ (by omega), f3]
    · rw [updFn_other _ _ _ _ (by omega), updFn_same, hxval,
          Nat.mod_eq_of_lt hxlt]
    · intro _
      rw [updFn_same, hyval, Nat.mod_eq_of_lt hylt]
    · intro h1
      omega
    · rw [updFn_other _ _ _ _ (by omega), updFn_other _ _ _ _ (by omega)]
      exact hTout _ (by omega)
    · intro j hj
      rw [updFn_other _ _ _ _ (by omega), updFn_other _ _ _ _ (by omega)]
      exact hTout _ (by omega)
    · exact hwT
    · rfl
    · rw [if_pos rfl, hTtoPC]

/-- Witness for the amended C6: length-4 opcode-2 command from the
power-on state; the single partial byte 40 lands in entry 1's red
channel and nothing else changes. -/
theorem partial_group_partial_write_witness :
    (∀ i, i < 1 →
      (runChunks init [[2, 4, 0, 10, 20, 30, 40]]).leds (3 * i) =
        [10, 20, 30, 40].getD (3 * i + 1) 0 ∧
      (runChunks init [[2, 4, 0, 10, 20, 30, 40]]).leds (3 * i + 1) =
        [10, 20, 30, 40].getD (3 * i) 0 ∧
      (runChunks init [[2, 4, 0, 10, 20, 30, 40]]).leds (3 * i + 2) =
        [10, 20, 30, 40].getD (3 * i + 2) 0) ∧
    (runChunks init [[2, 4, 0, 10, 20, 30, 40]]).leds (3 * 1 + 1) =
      [10, 20, 30, 40].getD (3 * 1) 0 ∧
    ((1 : Nat) = 2 → (runChunks init [[2, 4, 0, 10, 20, 30, 40]]).leds (3 * 1) =
      [10, 20, 30, 40].getD (3 * 1 + 1) 0) ∧
    ((1 : Nat) = 1 → (runChunks init [[2, 4, 0, 10, 20, 30, 40]]).leds (3 * 1) =
      init.leds (3 * 1)) ∧
    (runChunks init [[2, 4, 0, 10, 20, 30, 40]]).leds (3 * 1 + 2) =
      init.leds (3 * 1 + 2) ∧
    (∀ j, 3 * 1 + 3 ≤ j →
      (runChunks init [[2, 4, 0, 10, 20, 30, 40]]).leds j = init.leds j) ∧
    (runChunks init [[2, 4, 0, 10, 20, 30, 40]]).wptr = some (3 * 1) ∧
    (runChunks init [[2, 4, 0, 10, 20, 30, 40]]).data_remaining = 0 ∧
    (runChunks init [[2, 4, 0, 10, 20, 30, 40]]).toPC = init.toPC ++ [255] :=
  partial_group_partial_write init 4 0 1 1 [10, 20, 30, 40] [] [10, 20, 30, 40]
    rfl (by decide) (by decide) rfl (by decide) (Or.inl rfl) (by decide) rfl
    (by decide)

/-- The write cursor, whenever active, always sits at the start of entry
`led_index`, which is below the capacity bound; `color_index` stays in
the 3-phase range. -/
def CursorInv (s : Sys) : Prop :=
  s.color_index < 3 ∧
  ∀ w, s.wptr = some w → w = 3 * s.led_index ∧ s.led_index < 128

theorem decStep_cursor_inv (s : Sys) (idx b : Nat) (h : CursorInv s) :
    CursorInv (decStep s idx b) := by
  obtain ⟨hci, hwl⟩ := h
  rcases hdr : s.data_remaining with _ | d
  · rcases idx with _ | _ | _ | k
    · rw [decStep_hdr0 s b hdr]
      refine ⟨by norm_num, ?_⟩
      intro w hw
      rcases Option.some.inj hw with rfl
      exact ⟨by norm_num, by norm_num⟩
    · rw [decStep_hdr1 s b hdr]
      exact ⟨hci, hwl⟩
    · rw [decStep_hdr2 s b hdr]
      exact ⟨hci, hwl⟩
    · rw [decStep_hdr_ge3 s (k + 3) b hdr (by omega)]
      exact ⟨hci, hwl⟩
  · by_cases hcmd : s.command = 2
    · rcases hwp : s.wptr with _ | w
      · rw [decStep_inactive s idx b d hcmd hwp hdr]
        constructor
        · show (if s.color_index + 1 = 3 then 0 else s.color_index + 1) < 3
          split <;> omega
        · intro w hw
          exact Option.noConfusion hw
      · obtain ⟨hw3, hl128⟩ := hwl w hwp
        rcases hc3 : s.color_index with _ | _ | _ | c
        · rw [decStep_red s idx b w d hcmd hc3 hwp hdr]
          refine ⟨by norm_num, ?_⟩
          intro w' hw'
          exact hwl w' hw'
        · rw [decStep_green s idx b w d hcmd hc3 hwp hdr]
          refine ⟨by norm_num, ?_⟩
          intro w' hw'
          exact hwl w' hw'
        · rw [decStep_blue s idx b w d hcmd hc3 hwp hl128 hdr]
          refine ⟨by norm_num, ?_⟩
          intro w' hw'
          have hw2 : (if s.led_index + 1 = 128 then (none : Option Nat)
              else some (w + 3)) = some w' := hw'
          by_cases h128 : s.led_index + 1 = 128
          · rw [if_pos h128] at hw2
            exact Option.noConfusion hw2
          · rw [if_neg h128] at hw2
            have hw4 := Option.some.inj hw2
            constructor
            · show w' = 3 * (s.led_index + 1)
              omega
            · show s.led_index + 1 < 128
              omega
        · rw [hc3] at hci
          omega
    · rw [decStep_nonpixel s idx b d hcmd hdr]
      exact ⟨hci, hwl⟩

theorem runFrom_cursor_inv (p : List Nat) (s : Sys) (idx : Nat)
    (h : CursorInv s) : CursorInv (runFrom s idx p) := by
  induction p generalizing s idx with
  | nil => exact h
  | cons b rest ih => exact ih _ _ (decStep_cursor_inv s idx b h)

theorem runChunks_cursor_inv (cs : List (List Nat)) (s : Sys)
    (h : CursorInv s) : CursorInv (runChunks s cs) := by
  induction cs generalizing s with
  | nil => exact h
  | cons c rest ih => exact ih _ (runFrom_cursor_inv c s 0 h)

theorem init_cursor_inv : CursorInv init := by
  refine ⟨by decide, ?_⟩
  intro w hw
  rcases Option.some.inj hw with rfl
  exact ⟨by decide, by decide⟩

/-- Claim C5: in every state reachable from power-on by processing
transfers, the active write cursor sits at the start of entry
`led_index` with `led_index < LED_COUNT`, so no pixel-buffer write ever
targets an entry index at or beyond `LED_COUNT`; and an opcode-2 command
declaring `K > LED_COUNT` triples stores only the first `LED_COUNT`
triples, deactivates the cursor exactly when entry 127 completes,
consumes all remaining payload bytes without writing, and signals no
error to the host (only the normal `0xFF` acknowledgment). -/
theorem no_write_beyond_capacity :
    (∀ cs w, (runChunks init cs).wptr = some w →
      w = 3 * (runChunks init cs).led_index ∧
      (runChunks init cs).led_index < LED_COUNT) ∧
    (∀ (s : Sys) (lo hi K : Nat) (c0 : List Nat) (cs : List (List Nat))
        (p : List Nat),
      s.data_remaining = 0 → lo < 256 → hi < 256 →
      p = c0 ++ cs.flatten → (hi <<< 8) ||| lo = 3 * K → LED_COUNT < K →
      p.length = 3 * K → (∀ x ∈ p, x < 256) →
      (∀ i, i < LED_COUNT →
        (runChunks s ((2 :: lo :: hi :: c0) :: cs)).leds (3 * i) =
          p.getD (3 * i + 1) 0 ∧
        (runChunks s ((2 :: lo :: hi :: c0) :: cs)).leds (3 * i + 1) =
          p.getD (3 * i) 0 ∧
        (runChunks s ((2 :: lo :: hi :: c0) :: cs)).leds (3 * i + 2) =
          p.getD (3 * i + 2) 0) ∧
      (runChunks s ((2 :: lo :: hi :: c0) :: cs)).wptr = none ∧
      (runChunks s ((2 :: lo :: hi :: c0) :: cs)).data_remaining = 0 ∧
      (∀ j, 3 * LED_COUNT ≤ j →
        (runChunks s ((2 :: lo :: hi :: c0) :: cs)).leds j = s.leds j) ∧
      (runChunks s ((2 :: lo :: hi :: c0) :: cs)).toPC = s.toPC ++ [255]) := by
  constructor
  · intro cs w hw
    exact (runChunks_cursor_inv cs init init_cursor_inv).2 w hw
  · intro s lo hi K c0 cs p hdr hlo hhi hp hL hK hlen hbytes
    have hmlo : lo % 256 = lo := Nat.mod_eq_of_lt hlo
    have hmhi : hi % 256 = hi := Nat.mod_eq_of_lt hhi
    have hLm : ((hi % 256) <<< 8) ||| (lo % 256) = 3 * K := by
      rw [hmlo, hmhi]
      exact hL
    have hKbig : 128 < K := by simpa [LED_COUNT] using hK
    have hsplit := runChunks_cmd s 2 lo hi c0 cs hdr
      (by rw [hLm]
          have := congrArg List.length hp
          simp only [List.length_append] at this
          omega)
    have hH := runFrom_header s 2 lo hi hdr
    rw [hsplit, hH, ← hp]
    have htdsplit : p = p.take 384 ++ p.drop 384 :=
      (List.take_append_drop _ p).symm
    have htklen : (p.take 384).length = 384 := by
      rw [List.length_take]
      omega
    have hrunTD : ∀ s0 : Sys, runFrom s0 3 p =
        runFrom (runFrom s0 3 (p.take 384)) (3 + 384) (p.drop 384) := by
      intro s0
      conv_lhs => rw [htdsplit]
      rw [runFrom_append, htklen]
    rw [hrunTD]
    obtain ⟨e1, e2, e3, e4, e5, e6, e7, e8⟩ := runFrom_triples 128 (p.take 384)
      { s with command := 2 % 256, previous_byte := lo % 256,
               current_byte := hi % 256, color_index := 0, led_index := 0,
               wptr := some 0,
               data_remaining := ((hi % 256) <<< 8) ||| (lo % 256) }
      3 (3 * K - 384) (by rw [htklen]) rfl rfl
      (by show 0 + 128 ≤ 128; omega)
      (by show some 0 = if (0 : Nat) = 128 then none else some (3 * 0)
          norm_num)
      (by show ((hi % 256) <<< 8) ||| (lo % 256) = 3 * 128 + (3 * K - 384)
          rw [hLm]
          omega)
    dsimp only at e3 e4 e5 e6 e7 e8
    simp only [Nat.zero_add] at e3 e4 e6 e7 e8
    set T := runFrom
      { s with command := 2 % 256, previous_byte := lo % 256,
               current_byte := hi % 256, color_index := 0, led_index := 0,
               wptr := some 0,
               data_remaining := ((hi % 256) <<< 8) ||| (lo % 256) }
      3 (p.take 384) with hT
    have hwT : T.wptr = none := by
      rw [e4]
      norm_num
    have hdroplen : (p.drop 384).length = 3 * K - 384 := by
      rw [List.length_drop]
      omega
    have hdropne : p.drop 384 ≠ [] := by
      intro hnil
      have := congrArg List.length hnil
      rw [hdroplen] at this
      simp at this
      omega
    obtain ⟨g1, g2, g3, g4, g5⟩ := runFrom_inactive (p.drop 384) T (3 + 384) 0
      e1 hwT (by rw [e5, hdroplen]; omega)
    refine ⟨?_, g3, g4, ?_, ?_⟩
    · intro i hi2
      have hi128 : i < 128 := by simpa [LED_COUNT] using hi2
      obtain ⟨f1, f2, f3⟩ := e7 i hi128
      rw [getD_take p 384 _ (by omega)] at f1 f2 f3
      refine ⟨?_, ?_, ?_⟩
      · rw [g2, f1, Nat.mod_eq_of_lt (hbytes _ (getD_mem p _ (by omega)))]
      · rw [g2, f2, Nat.mod_eq_of_lt (hbytes _ (getD_mem p _ (by omega)))]
      · rw [g2, f3, Nat.mod_eq_of_lt (hbytes _ (getD_mem p _ (by omega)))]
    · intro j hj
      have hj384 : 384 ≤ j := by simpa [LED_COUNT] using hj
      rw [g2]
      exact e8 j (Or.inr (by omega))
    · rw [g5, e6]
      have h1 : ¬(3 * K - 384 = 0) := by omega
      simp [h1, hdropne]

set_option maxRecDepth 10000 in
/-- Witness for C5: cursor position after one stored triple, and an
overflowing command declaring 129 triples split over two transfers. -/
theorem no_write_beyond_capacity_witness :
    ((3 : Nat) = 3 * (runChunks init [[2, 3, 0, 1, 2, 3]]).led_index ∧
      (runChunks init [[2, 3, 0, 1, 2, 3]]).led_index < LED_COUNT) ∧
    ((∀ i, i < LED_COUNT →
        (runChunks init ((2 :: 131 :: 1 :: List.replicate 252 7) ::
          [List.replicate 135 7])).leds (3 * i) =
            (List.replicate 387 7).getD (3 * i + 1) 0 ∧
        (runChunks init ((2 :: 131 :: 1 :: List.replicate 252 7) ::
          [List.replicate 135 7])).leds (3 * i + 1) =
            (List.replicate 387 7).getD (3 * i) 0 ∧
        (runChunks init ((2 :: 131 :: 1 :: List.replicate 252 7) ::
          [List.replicate 135 7])).leds (3 * i + 2) =
            (List.replicate 387 7).getD (3 * i + 2) 0) ∧
      (runChunks init ((2 :: 131 :: 1 :: List.replicate 252 7) ::
        [List.replicate 135 7])).wptr = none ∧
      (runChunks init ((2 :: 131 :: 1 :: List.replicate 252 7) ::
        [List.replicate 135 7])).data_remaining = 0 ∧
      (∀ j, 3 * LED_COUNT ≤ j →
        (runChunks init ((2 :: 131 :: 1 :: List.replicate 252 7) ::
          [List.replicate 135 7])).leds j = init.leds j) ∧
      (runChunks init ((2 :: 131 :: 1 :: List.replicate 252 7) ::
        [List.replicate 135 7])).toPC = init.toPC ++ [255]) :=
  ⟨no_write_beyond_capacity.1 [[2, 3, 0, 1, 2, 3]] 3 (by decide),
   no_write_beyond_capacity.2 init 131 1 129 (List.replicate 252 7)
     [List.replicate 135 7] (List.replicate 387 7) rfl (by decide) (by decide)
     (by decide) (by decide) (by decide) (by decide) (by decide)⟩

theorem decStep_dr_zero (s : Sys) (idx b : Nat)
    (hdr : s.data_remaining = 0) (hidx : idx ≠ 2) :
    (decStep s idx b).data_remaining = 0 := by
  rcases idx with _ | _ | _ | k
  · rw [decStep_hdr0 s b hdr]
    exact hdr
  · rw [decStep_hdr1 s b hdr]
    exact hdr
  · exact absurd rfl hidx
  · rw [decStep_hdr_ge3 s (k + 3) b hdr (by omega)]
    exact hdr

/-- Within one transfer, the staged output grows by at most one byte for
a carried-over payload completing, plus at most one byte for a payload
latched at position 2 of this transfer. -/
theorem runFrom_ack_bound (p : List Nat) (s : Sys) (idx : Nat) :
    (runFrom s idx p).toPC.length ≤
      s.toPC.length + (if s.data_remaining = 0 then 0 else 1) +
      (if idx ≤ 2 then 1 else 0) := by
  induction p generalizing s idx with
  | nil =>
    show s.toPC.length ≤ _
    split <;> split <;> omega
  | cons b rest ih =>
    have hstep : (decStep s idx b).toPC.length =
        s.toPC.length + (if s.data_remaining = 1 then 1 else 0) := by
      rw [decStep_toPC s idx b]
      split <;> simp
    have IH := ih (decStep s idx b) (idx + 1)
    rw [hstep] at IH
    show (runFrom (decStep s idx b) (idx + 1) rest).toPC.length ≤ _
    have hC : (if idx + 1 ≤ 2 then (1 : Nat) else 0) ≤
        (if idx ≤ 2 then (1 : Nat) else 0) := by
      split <;> split <;> omega
    by_cases hdr : s.data_remaining = 0
    · have hA0 : (if s.data_remaining = 1 then (1 : Nat) else 0) = 0 := by
        rw [hdr]
        simp
      have hD0 : (if s.data_remaining = 0 then (0 : Nat) else 1) = 0 := by
        rw [hdr]
        simp
      by_cases hidx2 : idx = 2
      · subst hidx2
        have hB : (if (decStep s 2 b).data_remaining = 0 then (0 : Nat) else 1)
            ≤ 1 := by
          split <;> omega
        have hE : (if (2 : Nat) ≤ 2 then (1 : Nat) else 0) = 1 := by norm_num
        have hF : (if (2 : Nat) + 1 ≤ 2 then (1 : Nat) else 0) = 0 := by
          norm_num
        omega
      · have h0 := decStep_dr_zero s idx b hdr hidx2
        have hB0 : (if (decStep s idx b).data_remaining = 0 then (0 : Nat)
            else 1) = 0 := by
          rw [h0]
          simp
        omega
    · obtain ⟨d, hd⟩ : ∃ d, s.data_remaining = d + 1 :=
        ⟨s.data_remaining - 1, by omega⟩
      have hdr' := decStep_dr_succ s idx b d hd
      have hAB : (if s.data_remaining = 1 then (1 : Nat) else 0) +
          (if (decStep s idx b).data_remaining = 0 then (0 : Nat) else 1)
          ≤ 1 := by
        rw [hd, hdr']
        rcases d with _ | e <;> simp
      have hD1 : (if s.data_remaining = 0 then (0 : Nat) else 1) = 1 := by
        rw [hd]
        simp
      omega

/-- Claim C10: any polling-loop iteration that processes an inbound
transfer first flushes the staged output (so staging starts empty), and
during one transfer at most two acknowledgment bytes are staged — one
from a carried-over payload completing, one from a payload latched at
position 2 of this transfer — so the staging index stays within any
outbound buffer of at least two bytes. -/
theorem at_most_two_acks_per_chunk (s : Sys) (c : List Nat) :
    (flush s).toPC = [] ∧ (usbIter s c).toPC.length ≤ 2 := by
  refine ⟨rfl, ?_⟩
  have h := runFrom_ack_bound c (flush s) 0
  have h1 : (if (flush s).data_remaining = 0 then (0 : Nat) else 1) ≤ 1 := by
    split <;> omega
  have h2 : (if (0 : Nat) ≤ 2 then (1 : Nat) else 0) = 1 := by norm_num
  have h3 : (flush s).toPC.length = 0 := rfl
  show (runFrom (flush s) 0 c).toPC.length ≤ 2
  omega

theorem and_seven_eq_mod (x : Nat) : x &&& 7 = x % 8 := by
  simpa using Nat.and_pow_two_sub_one_eq_mod x 3

set_option maxRecDepth 4000 in
theorem expandByteImpl_eq : ∀ b, b < 256 → expandByteImpl b 8 = expandByte b := by
  decide

theorem isrStep_leds (s : Sys) : (isrStep s).leds = s.leds := by
  unfold isrStep emitBit
  split
  · split <;> rfl
  · rfl

theorem isrStep_toPC (s : Sys) : (isrStep s).toPC = s.toPC := by
  unfold isrStep emitBit
  split
  · split <;> rfl
  · rfl

theorem emitRun_leds (n : Nat) (s : Sys) : (emitRun n s).leds = s.leds := by
  induction n generalizing s with
  | zero => rfl
  | succ k ih =>
    rw [show emitRun (k + 1) s = emitRun k (isrStep s) from rfl, ih,
        isrStep_leds]

theorem emitRun_toPC (n : Nat) (s : Sys) : (emitRun n s).toPC = s.toPC := by
  induction n generalizing s with
  | zero => rfl
  | succ k ih =>
    rw [show emitRun (k + 1) s = emitRun k (isrStep s) from rfl, ih,
        isrStep_toPC]

theorem emitRun_add (a b : Nat) (s : Sys) :
    emitRun (a + b) s = emitRun b (emitRun a s) := by
  induction a generalizing s with
  | zero =>
    rw [Nat.zero_add]
    rfl
  | succ k ih =>
    have h : k + 1 + b = (k + b) + 1 := by omega
    rw [h, show emitRun ((k + b) + 1) s = emitRun (k + b) (isrStep s) from rfl,
        ih]
    rfl

/-- The 7 remaining bit emissions of the current ISR byte. -/
theorem emitRun_bits (n : Nat) (hn : n ≤ 7) (s : Sys) (hg : s.gie = true)
    (hbp : s.bit_position = (8 - n) % 8) :
    (emitRun n s).out = s.out ++ expandByteImpl s.isr_current n ∧
    (emitRun n s).bit_position = 0 ∧
    (emitRun n s).gie = true ∧
    (emitRun n s).byte_count = s.byte_count ∧
    (emitRun n s).isr_ptr = s.isr_ptr := by
  induction n generalizing s with
  | zero =>
    refine ⟨by simp [emitRun, expandByteImpl], ?_, hg, rfl, rfl⟩
    rw [show emitRun 0 s = s from rfl, hbp]
  | succ k ih =>
    have hbpne : s.bit_position ≠ 0 := by
      rw [hbp]
      omega
    have hstep : isrStep s = emitBit s := by
      unfold isrStep
      rw [if_neg hbpne]
    have hE : emitRun (k + 1) s = emitRun k (emitBit s) := by
      rw [show emitRun (k + 1) s = emitRun k (isrStep s) from rfl, hstep]
    have hbp' : (emitBit s).bit_position = (8 - k) % 8 := by
      show (s.bit_position + 1) &&& 7 = (8 - k) % 8
      rw [and_seven_eq_mod, hbp]
      omega
    obtain ⟨o1, o2, o3, o4, o5⟩ := ih (by omega) (emitBit s) hg hbp'
    rw [hE]
    refine ⟨?_, o2, o3, o4, o5⟩
    rw [o1]
    show (s.out ++ [pulsePat s.isr_current]) ++
        expandByteImpl ((s.isr_current <<< 1) % 256) k =
      s.out ++ expandByteImpl s.isr_current (k + 1)
    rw [List.append_assoc]
    rfl

/-- One full ISR byte: load from the read cursor, then 8 bit emissions. -/
theorem emitRun_byte (s : Sys) (hg : s.gie = true) (hbp : s.bit_position = 0)
    (hbc : s.byte_count < 384) (hptr : s.isr_ptr = s.byte_count)
    (hlt : s.leds s.byte_count < 256) :
    (emitRun 8 s).out = s.out ++ expandByte (s.leds s.byte_count) ∧
    (emitRun 8 s).bit_position = 0 ∧
    (emitRun 8 s).gie = true ∧
    (emitRun 8 s).byte_count = s.byte_count + 1 ∧
    (emitRun 8 s).isr_ptr = s.byte_count + 1 := by
  have hne : ¬(s.byte_count = LED_COUNT * 3) := by
    simp only [LED_COUNT]
    omega
  have hstep : isrStep s =
      emitBit { s with isr_current := s.leds s.isr_ptr,
                       isr_ptr := s.isr_ptr + 1,
                       byte_count := s.byte_count + 1 } := by
    unfold isrStep
    rw [if_pos hbp, if_neg hne]
  have hE : emitRun 8 s =
      emitRun 7 (emitBit { s with isr_current := s.leds s.isr_ptr,
                                  isr_ptr := s.isr_ptr + 1,
                                  byte_count := s.byte_count + 1 }) := by
    rw [show emitRun 8 s = emitRun 7 (isrStep s) from rfl, hstep]
  obtain ⟨o1, o2, o3, o4, o5⟩ := emitRun_bits 7 (by omega)
    (emitBit { s with isr_current := s.leds s.isr_ptr,
                      isr_ptr := s.isr_ptr + 1,
                      byte_count := s.byte_count + 1 })
    hg
    (by show (s.bit_position + 1) &&& 7 = (8 - 7) % 8
        rw [hbp]
        decide)
  rw [hE]
  refine ⟨?_, o2, o3, by rw [o4]; rfl,
          by rw [o5]
             show s.isr_ptr + 1 = s.byte_count + 1
             rw [hptr]⟩
  rw [o1, hptr]
  show (s.out ++ [pulsePat (s.leds s.byte_count)]) ++
      expandByteImpl ((s.leds s.byte_count <<< 1) % 256) 7 =
    s.out ++ expandByte (s.leds s.byte_count)
  rw [List.append_assoc, ← expandByteImpl_eq _ hlt]
  rfl

/-- `m` remaining ISR bytes: `8 * m` steps stream the buffer bytes
`byte_count .. 383` as MSB-first pulse patterns. -/
theorem emitRun_pass (m : Nat) (s : Sys) (hm : m ≤ 384) (hg : s.gie = true)
    (hbp : s.bit_position = 0) (hbc : s.byte_count = 384 - m)
    (hptr : s.isr_ptr = s.byte_count)
    (hlt : ∀ i, i < 384 → s.leds i < 256) :
    (emitRun (8 * m) s).out = s.out ++
      ((List.range' s.byte_count m).map (fun i => expandByte (s.leds i))).flatten ∧
    (emitRun (8 * m) s).bit_position = 0 ∧
    (emitRun (8 * m) s).gie = true ∧
    (emitRun (8 * m) s).byte_count = 384 ∧
    (emitRun (8 * m) s).isr_ptr = 384 := by
  induction m generalizing s with
  | zero =>
    refine ⟨by simp [emitRun], hbp, hg, by show s.byte_count = 384; omega,
            by show s.isr_ptr = 384; rw [hptr]; omega⟩
  | succ k ih =>
    have hbclt : s.byte_count < 384 := by omega
    obtain ⟨b1, b2, b3, b4, b5⟩ := emitRun_byte s hg hbp hbclt hptr
      (hlt _ hbclt)
    have hleds8 : (emitRun 8 s).leds = s.leds := emitRun_leds 8 s
    obtain ⟨p1, p2, p3, p4, p5⟩ := ih (emitRun 8 s) (by omega) b3 b2
      (by rw [b4]; omega) (by rw [b5, b4]) (by rw [hleds8]; exact hlt)
    have hsplit : emitRun (8 * (k + 1)) s = emitRun (8 * k) (emitRun 8 s) := by
      rw [show 8 * (k + 1) = 8 + 8 * k from by ring, emitRun_add]
    rw [hsplit]
    refine ⟨?_, p2, p3, p4, p5⟩
    rw [p1, b1, b4, hleds8]
    have hrng : List.range' s.byte_count (k + 1) =
        s.byte_count :: List.range' (s.byte_count + 1) k :=
      List.range'_succ s.byte_count k 1
    rw [hrng]
    simp [List.append_assoc]

/-- Claim C2: from the hand-off state (read cursor published at the
buffer start, activation flag set, ISR statics at an 8-bit boundary with
a zero byte count), 3073 ISR invocations perform exactly
`LED_COUNT * 3 * 8 = 3072` pattern emissions — the MSB-first expansion of
the 384 buffer bytes in order, `0xFF` per 1 bit and `0xF0` per 0 bit —
and the final invocation emits nothing, clears the activation flag and
resets the byte counter, after which the emitter is idle: a further tick
changes nothing until the next hand-off. -/
theorem emitter_pass_emits_3072 (s : Sys) (hg : s.gie = true)
    (hbp : s.bit_position = 0) (hbc : s.byte_count = 0) (hptr : s.isr_ptr = 0)
    (hlt : ∀ i, i < 384 → s.leds i < 256) :
    (emitRun 3073 s).out = s.out ++ expandBuffer s ∧
    (expandBuffer s).length = LED_COUNT * 3 * 8 ∧
    (emitRun 3073 s).gie = false ∧
    (emitRun 3073 s).bit_position = 0 ∧
    (emitRun 3073 s).byte_count = 0 ∧
    (emitRun 3073 s).leds = s.leds ∧
    (emitRun 3073 s).toPC = s.toPC ∧
    sysStep (emitRun 3073 s) Ev.tick = emitRun 3073 s := by
  obtain ⟨p1, p2, p3, p4, p5⟩ := emitRun_pass 384 s (by omega) hg hbp
    (by omega) (by rw [hptr, hbc]) hlt
  have hrange : List.range (LED_COUNT * 3) = List.range' 0 384 := by
    rw [show LED_COUNT * 3 = 384 from rfl, List.range_eq_range']
  have hexp : expandBuffer s =
      ((List.range' 0 384).map (fun i => expandByte (s.leds i))).flatten := by
    rw [expandBuffer, hrange]
  rw [hbc] at p1
  rw [← hexp] at p1
  have h8 : (3072 : Nat) = 8 * 384 := by norm_num
  rw [← h8] at p1 p2 p3 p4 p5
  have hsplit : emitRun 3073 s = isrStep (emitRun 3072 s) := by
    rw [show (3073 : Nat) = 3072 + 1 from rfl, emitRun_add]
    rfl
  have hleds := emitRun_leds 3073 s
  have htoPC := emitRun_toPC 3073 s
  obtain ⟨Y, hY⟩ : ∃ Y, emitRun 3072 s = Y := ⟨_, rfl⟩
  rw [hY] at p1 p2 p3 p4 p5 hsplit
  have hterm : isrStep Y = { Y with gie := false, byte_count := 0 } := by
    unfold isrStep
    rw [if_pos p2, if_pos (by rw [p4]; rfl)]
  rw [hterm] at hsplit
  have hlen : ∀ l : List Nat,
      ((l.map (fun i => expandByte (s.leds i))).flatten).length = 8 * l.length := by
    intro l
    induction l with
    | nil => simp
    | cons x t iht =>
      simp only [List.map_cons, List.flatten_cons, List.length_append, iht,
        List.length_cons]
      have : (expandByte (s.leds x)).length = 8 := by simp [expandByte]
      rw [this]
      ring
  refine ⟨?_, ?_, ?_, ?_, ?_, hleds, htoPC, ?_⟩
  · rw [hsplit]
    show Y.out = s.out ++ expandBuffer s
    exact p1
  · rw [hexp, hlen]
    simp [LED_COUNT]
  · rw [hsplit]
  · rw [hsplit]
    show Y.bit_position = 0
    exact p2
  · rw [hsplit]
  · have hgf : (emitRun 3073 s).gie = false := by rw [hsplit]
    show (if (emitRun 3073 s).gie then isrStep (emitRun 3073 s)
          else emitRun 3073 s) = emitRun 3073 s
    rw [hgf]
    simp

set_option maxRecDepth 10000 in
/-- Witness for C2: a hand-off from the power-on state (zeroed buffer,
activation flag just set, cursors at zero). -/
theorem emitter_pass_emits_3072_witness :
    (emitRun 3073 { init with gie := true }).out =
      { init with gie := true }.out ++ expandBuffer { init with gie := true } ∧
    (expandBuffer { init with gie := true }).length = LED_COUNT * 3 * 8 ∧
    (emitRun 3073 { init with gie := true }).gie = false ∧
    (emitRun 3073 { init with gie := true }).bit_position = 0 ∧
    (emitRun 3073 { init with gie := true }).byte_count = 0 ∧
    (emitRun 3073 { init with gie := true }).leds =
      { init with gie := true }.leds ∧
    (emitRun 3073 { init with gie := true }).toPC =
      { init with gie := true }.toPC ∧
    sysStep (emitRun 3073 { init with gie := true }) Ev.tick =
      emitRun 3073 { init with gie := true } :=
  emitter_pass_emits_3072 { init with gie := true } rfl rfl rfl rfl (by decide)

/-- Claim C8, evaluated at a failing interleaving: after the opcode-2
command `[2, 3, 0] ++ [10, 20, 30]` completes, the hand-off sets the
activation flag; with no ISR step in between, a second opcode-2 header
`[2, 3, 0]` arrives and its first payload byte 7 is written into the
pixel buffer (entry 0's red channel changes from 10 to 7) while the
activation flag is still set — the decoder does not treat the flag as a
mutual-exclusion gate. -/
theorem write_during_active_emission :
    (sysRun init [Ev.chunk [2, 3, 0, 10, 20, 30]]).gie = true ∧
    (runFrom (flush (sysRun init [Ev.chunk [2, 3, 0, 10, 20, 30]])) 0
      [2, 3, 0]).gie = true ∧
    (runFrom (flush (sysRun init [Ev.chunk [2, 3, 0, 10, 20, 30]])) 0
      [2, 3, 0]).leds 1 = 10 ∧
    (decStep (runFrom (flush (sysRun init [Ev.chunk [2, 3, 0, 10, 20, 30]])) 0
      [2, 3, 0]) 3 7).gie = true ∧
    (decStep (runFrom (flush (sysRun init [Ev.chunk [2, 3, 0, 10, 20, 30]])) 0
      [2, 3, 0]) 3 7).leds 1 = 7 := by
  refine ⟨by decide, by decide, by decide, by decide, by decide⟩
